import Mathlib

/-!
Verification development for the Lexia hybrid-RAG repository.

This file gives a shallow embedding, in Lean 4, of the chunking engine
(`src/Local/utils/ingest.py`) and of the hybrid retrieval pipeline
(`src/Local/utils/retrieve.py`), and proves (or refutes) the frozen
specification claims about them.

Modelling conventions:
* Python `str` is modelled by Lean `String` (both count code points).
* Python machine floats appear only as the constant factors `1.3`, `1.2`,
  `0.25`, `0.5` and the overlap ratio `0.18`.  For a natural number `w`,
  `int(w * 1.3)` evaluated in IEEE-754 double precision equals `13*w/10`
  (Nat division): the double nearest to `1.3` is `1.3 + e` with
  `0 < e < 2^-52`, so the rounded product `w * 1.3` lies strictly between
  `13*w/10` and the next larger integer whenever `13*w/10` is not an
  integer (distance at least `1/10` versus an error below `2^-40` for any
  list length a machine can hold), and lands exactly on the integer when
  `13*w/10` is one.  The same argument applies to `1.2 = 6/5` (whose
  nearest double lies just below, with relative error under `2^-53`, so
  rounding the product recovers the exact integer) and to `0.18 = 9/50`.
  `0.25` and `0.5` are exactly representable.  Scores built from
  `1.0/(k+r)` are modelled as exact rationals.
* Python `list.sort(key=..., reverse=True)` is a stable descending sort;
  any two stable sorts agree, so it is modelled with Mathlib's (stable)
  `List.insertionSort` under the relation `b.key <= a.key`.
* A Python `dict` key that a source dict literal never sets is modelled
  as an `Option` field holding `none`.
-/

namespace Lexia

/-! ### Python string primitives

Core `String` functions are byte-position based and do not reduce inside
the kernel, so every Python string operation used by the embedding is
implemented structurally over `List Char` and wrapped back into `String`.
-/

/-- Helper for `pyWords`: scan characters, collecting the current word. -/
def wordsAux : List Char → List Char → List (List Char)
  | [], acc => if acc = [] then [] else [acc.reverse]
  | c :: cs, acc =>
    if c.isWhitespace then
      (if acc = [] then wordsAux cs [] else acc.reverse :: wordsAux cs [])
    else wordsAux cs (c :: acc)

/-- Python `s.split()`: split on whitespace runs, dropping empty pieces. -/
def pyWords (s : String) : List String :=
  (wordsAux s.toList []).map (fun l => String.mk l)

/-- Split a character list at every occurrence of `sep`, keeping empty pieces
(the semantics of Python `s.split(sep)` for a one-character separator). -/
def chSplit (sep : Char) : List Char → List (List Char)
  | [] => [[]]
  | c :: cs =>
    match chSplit sep cs with
    | [] => [[]]
    | h :: t => if c = sep then [] :: h :: t else (c :: h) :: t

/-- Python `s.split(sep)` for a one-character separator. -/
def pySplit (sep : Char) (s : String) : List String :=
  (chSplit sep s.toList).map (fun l => String.mk l)

/-- Python `s.splitlines()` restricted to `\n` separators: no entry after a
trailing newline, and the empty string yields no lines. -/
def pySplitlines (s : String) : List String :=
  match s.toList with
  | [] => []
  | l =>
    let parts := chSplit '\n' l
    (if l.getLast? = some '\n' then parts.dropLast else parts).map
      (fun p => String.mk p)

/-- Strip characters satisfying `p` from both ends of a character list. -/
def chStrip (p : Char → Bool) (l : List Char) : List Char :=
  ((l.dropWhile p).reverse.dropWhile p).reverse

/-- Python `s.strip()`: remove surrounding whitespace. -/
def pyStrip (s : String) : String :=
  String.mk (chStrip Char.isWhitespace s.toList)

/-- Python `s.strip(":")`: remove surrounding colons. -/
def pyStripColon (s : String) : String :=
  String.mk (chStrip (fun c => c = ':') s.toList)

/-- Character-list test that `pat` is an initial segment of `l`. -/
def chStartsWith : List Char → List Char → Bool
  | _, [] => true
  | [], _ :: _ => false
  | c :: cs, p :: ps => c = p && chStartsWith cs ps

/-- Python `s.startswith(pat)`. -/
def pyStartsWith (s pat : String) : Bool :=
  chStartsWith s.toList pat.toList

/-- Python `s.endswith(pat)`. -/
def pyEndsWith (s pat : String) : Bool :=
  chStartsWith s.toList.reverse pat.toList.reverse

/-- Python `sep.join(parts)`. -/
def pyJoin (sep : String) : List String → String
  | [] => ""
  | [x] => x
  | x :: y :: rest => x ++ sep ++ pyJoin sep (y :: rest)

/-- Python `s[:n]` (first `n` characters). -/
def pyTake (s : String) (n : Nat) : String :=
  String.mk (s.toList.take n)

/-- Python `s[-k:]`.  CRUCIAL Python semantics: `s[-0:]` is the WHOLE string,
because `-0 == 0`; for `k > 0` it is the suffix of (at most) `k` characters. -/
def pyTailSlice (s : String) (k : Nat) : String :=
  if k = 0 then s else String.mk (s.toList.drop (s.toList.length - k))

/-- Plain character suffix of length `k` (what the spec text describes:
the last `k` characters, which for `k = 0` is the empty string). -/
def specTailSlice (s : String) (k : Nat) : String :=
  String.mk (s.toList.drop (s.toList.length - k))

/-- Python `str.isupper()`: at least one cased character and no lowercase
ones (ASCII-cased approximation). -/
def pyIsUpper (s : String) : Bool :=
  let cased := s.toList.filter (fun c => c.isUpper || c.isLower)
  !cased.isEmpty && cased.all Char.isUpper

/-- Parse the digits of a decimal integer with optional sign, Python
`int(str)` style (surrounding whitespace stripped; underscores and exotic
digits are not modelled). -/
def chParseInt (l : List Char) : Option Int :=
  let t := chStrip Char.isWhitespace l
  let (sign, digits) : Int × List Char :=
    match t with
    | '-' :: rest => (-1, rest)
    | '+' :: rest => (1, rest)
    | _ => (1, t)
  if digits = [] ∨ ¬ digits.all Char.isDigit then none
  else some (sign * (digits.foldl (fun acc c => 10 * acc + (c.toNat - 48)) 0 : Nat))

/-- Python `int(s)` returning `none` on failure. -/
def pyInt (s : String) : Option Int := chParseInt s.toList

/-- Python `s.replace("\t", " ")` (single-character replacement). -/
def pyReplaceTab (s : String) : String :=
  String.mk (s.toList.map (fun c => if c = '\t' then ' ' else c))

/-- Python `sorted(set(xs))` for integers: distinct values in increasing order. -/
def pySortedSet (xs : List Int) : List Int :=
  xs.dedup.insertionSort (· ≤ ·)

/-- Number of whitespace-separated words of a string. -/
def wordCount (s : String) : Nat := (pyWords s).length

/-- Source `ingest.py` line 133: `max(1, int(len(s.split()) * 1.3))`.
`int(w * 1.3)` on doubles equals `13*w/10` in Nat division (see header). -/
def tokenize_len (s : String) : Nat :=
  max 1 (13 * (pyWords s).length / 10)

/-- Source `ingest.py` line 308: `max(1, int(len(" ".join(r).split()) * 1.2))`.
`int(w * 1.2)` on doubles equals `6*w/5` in Nat division (see header). -/
def row_tokens (r : List String) : Nat :=
  max 1 (6 * (pyWords (pyJoin " " r)).length / 5)

/-- Spec-literal reading of the token estimate: `max(1, round(wordCount * 1.3))`
with genuine rounding, as the spec sentence states it. -/
def specTokenizeLenRound (s : String) : Nat :=
  max 1 (round ((wordCount s : ℚ) * (13 / 10))).toNat

/-- Spec-literal reading of the row cost: `max(1, round(wordCount(joinedCells) * 1.2))`
with genuine rounding, as the spec sentence states it. -/
def specRowTokensRound (r : List String) : Nat :=
  max 1 (round ((wordCount (pyJoin " " r) : ℚ) * (6 / 5))).toNat


/-! ### Retrieval pipeline (`src/Local/utils/retrieve.py`) -/

/-- A retrieval candidate dict as built by `dense_search` (lines 32-42) and
`bm25_search` (lines 50-58).  `content_type` is an `Option` because a candidate
dict may lack that key entirely (`none` = key absent, matching `dict.get`). -/
structure Cand where
  id : String
  score : ℚ
  doc_id : String
  doc_title : String := ""
  section_title : String := ""
  page_nums : List Int := []
  chunk_index : Int := -1
  content_type : Option String := none
deriving DecidableEq

/-- The Qdrant payload fields stored by `upsert` that `dense_search` can read.
`content_type` is among them (stored by `ingest.py` line 486). -/
structure Payload where
  doc_id : String
  doc_title : String
  section_title : String := ""
  page_nums : List Int := []
  chunk_index : Int := -1
  content_type : Option String := none
deriving DecidableEq

/-- One raw hit returned by the vector index. -/
structure Hit where
  id : String
  score : ℚ
  payload : Payload
deriving DecidableEq

/-- Source `retrieve.py` lines 32-42: the candidate dict literal built for a
dense hit sets exactly `id, score, doc_id, doc_title, section_title,
page_nums, chunk_index`.  It does not copy `content_type` out of the payload,
so that field is left at its absent default. -/
def dense_search_out (hits : List Hit) : List Cand :=
  hits.map (fun r =>
    { id := r.id, score := r.score, doc_id := r.payload.doc_id,
      doc_title := r.payload.doc_title,
      section_title := r.payload.section_title,
      page_nums := r.payload.page_nums,
      chunk_index := r.payload.chunk_index })

/-- The value `ranks(items)[pid]` looks up: the index of the LAST occurrence
of `pid` (the dict comprehension `{item["id"]: i for i, item in enumerate(..)}`
overwrites on duplicate ids), or `none` when absent. -/
def lastIdx (pid : String) : List Cand → Option Nat
  | [] => none
  | c :: rest =>
    match lastIdx pid rest with
    | some j => some (j + 1)
    | none => if c.id = pid then some 0 else none

/-- Python `rd.get(pid, 10_000)` as a rational rank. -/
def rankVal (items : List Cand) (pid : String) : ℚ :=
  (((lastIdx pid items).getD 10000 : Nat) : ℚ)

/-- Source `retrieve.py` line 67: `1.0/(k + rd.get(pid, 10_000)) +
1.0/(k + rs.get(pid, 10_000))` (floats modelled as exact rationals). -/
def rrfScore (k : ℚ) (dense sparse : List Cand) (pid : String) : ℚ :=
  1 / (k + rankVal dense pid) + 1 / (k + rankVal sparse pid)

/-- A fused candidate: `{**meta, "rrf": score}`. -/
structure Fused where
  cand : Cand
  rrf : ℚ
deriving DecidableEq

/-- Source `retrieve.py` line 68: metadata from the first matching dense
entry, else the first matching sparse entry. -/
def fuseMeta (dense sparse : List Cand) (pid : String) : Option Cand :=
  match dense.find? (fun x => x.id == pid) with
  | some c => some c
  | none => sparse.find? (fun x => x.id == pid)

/-- The `fused` list before sorting.  Python iterates `ids = set(rd) | set(rs)`;
the language does not determine that iteration order from the two lists (string
hashing is even randomized across processes), so the enumeration order of the
id set is an explicit parameter `idOrder` here.  A faithful instantiation is
any duplicate-free enumeration of the union of the two id sets. -/
def fusedPre (idOrder : List String) (dense sparse : List Cand) (k : ℚ) :
    List Fused :=
  idOrder.filterMap (fun pid =>
    (fuseMeta dense sparse pid).map (fun m => ⟨m, rrfScore k dense sparse pid⟩))

/-- Descending-by-score comparison used for the final sort. -/
def fusedGE (a b : Fused) : Prop := b.rrf ≤ a.rrf

instance : DecidableRel fusedGE :=
  fun a b => inferInstanceAs (Decidable (b.rrf ≤ a.rrf))

instance : IsTotal Fused fusedGE := ⟨fun a b => le_total b.rrf a.rrf⟩

instance : IsTrans Fused fusedGE := ⟨fun _ _ _ h1 h2 => le_trans h2 h1⟩

/-- Python `fused.sort(key=lambda x: x["rrf"], reverse=True)`: a stable
descending sort (stable sorts are extensionally unique, so insertion sort
models timsort). -/
def sortByRrf (l : List Fused) : List Fused :=
  l.insertionSort fusedGE

/-- Source `retrieve.py` lines 61-71 (`rrf_fuse`), with the id-set enumeration
order made explicit. -/
def rrf_fuse (idOrder : List String) (dense sparse : List Cand) (k : ℚ) :
    List Fused :=
  sortByRrf (fusedPre idOrder dense sparse k)

/-- First pass of `_diverse_head`: walk `items`, taking candidates whose
`doc_id` was not seen yet; return early (`true`) once `out` reaches `limit`. -/
def dhPass1 (limit : Nat) : List Cand → List Cand → List String →
    (List Cand × Bool)
  | [], out, _ => (out, false)
  | it :: rest, out, seen =>
    if it.doc_id ∈ seen then dhPass1 limit rest out seen
    else
      let out2 := out ++ [it]
      if out2.length = limit then (out2, true)
      else dhPass1 limit rest out2 (seen ++ [it.doc_id])

/-- Second pass of `_diverse_head`: append candidates from the START of
`items` (already-taken ones included) until `out` reaches `limit`. -/
def dhPass2 (limit : Nat) : List Cand → List Cand → List Cand
  | [], out => out
  | it :: rest, out =>
    if out.length = limit then out else dhPass2 limit rest (out ++ [it])

/-- Source `retrieve.py` lines 79-88 (`_diverse_head`). -/
def diverse_head (items : List Cand) (limit : Nat) : List Cand :=
  match dhPass1 limit items [] [] with
  | (out, true) => out
  | (out, false) => (dhPass2 limit items out).take limit

/-- Source `retrieve.py` `_whoosh_id_from_meta`: keep ids already shaped like
`doc_id:chunk_index`, else derive that key from payload fields. -/
def whoosh_id_from_meta (t : Cand) : String :=
  if ':' ∈ t.id.toList ∧ (chSplit ':' t.id.toList).length = 2 then t.id
  else if t.chunk_index ≠ -1 then t.doc_id ++ ":" ++ toString t.chunk_index
  else t.id

/-- Source `retrieve.py` lines 127-130: the passage handed to the
cross-encoder for candidate `t`, given the lexical index's text loader:
`"[" + doc_title + "] " + section_title + "\n" + ("[TABLE]\n" if
t.get("content_type") == "table" else "") + chunk_text`. -/
def rerankPassage (loadText : String → String) (t : Cand) : String :=
  let pfx := if t.content_type = some "table" then "[TABLE]\n" else ""
  "[" ++ t.doc_title ++ "] " ++ t.section_title ++ "\n" ++ pfx ++
    loadText (whoosh_id_from_meta t)

/-- A dense-side candidate used in concrete scenarios. -/
def candA : Cand := { id := "A", score := 1, doc_id := "dA" }

/-- A sparse-side candidate used in concrete scenarios. -/
def candB : Cand := { id := "B", score := 1, doc_id := "dB" }

/-- A second candidate sharing `candA`'s document, for diversity scenarios. -/
def candA2 : Cand := { id := "B", score := 1, doc_id := "dA" }

/-- First (0-based) position of a string in a list, the rank notion the
claims speak about. -/
def posOf (a : String) : List String → Option Nat
  | [] => none
  | b :: l => if b = a then some 0 else (posOf a l).map (· + 1)

/-- The rank a claim assigns to `pid` in a candidate list: its 0-based
position, or `10000` when absent. -/
def claimRank (l : List Cand) (pid : String) : ℚ :=
  match posOf pid (l.map Cand.id) with
  | some i => (i : ℚ)
  | none => 10000


/-! ### Ingestion chunking engine (`src/Local/utils/ingest.py`) -/

/-- A normalized input block, as produced by `read_blocks_with_tables`:
either `{"type":"text", "page", "heading", "text"}` or
`{"type":"table", "page", "heading", "rows", "n_cols", "table_id"}`. -/
structure Block where
  type : String
  page : Int := 1
  heading : String := ""
  text : String := ""
  rows : List (List String) := []
  n_cols : Nat := 0
  table_id : String := ""
deriving DecidableEq

/-- A structural sub-block produced by `split_text_structure`. -/
structure SubBlock where
  page : Int
  heading : String
  text : String
deriving DecidableEq

/-- Python `current_head[-3:]`: the last three heading-stack entries. -/
def lastThree (l : List String) : List String := l.drop (l.length - 3)

/-- Page number parsed from a page-marker line:
`int(ln.split(":")[1].split("]")[0])`, with any failure ignored by the
surrounding `try`/`except`. -/
def parsePage (ln : String) : Option Int :=
  match (chSplit ':' ln.toList).drop 1 with
  | [] => none
  | part :: _ =>
    match chSplit ']' part with
    | [] => none
    | seg :: _ => chParseInt seg

/-- Heading-line test of `split_text_structure` (line 175): `ln.strip() and
(ln.strip().endswith(":") or (ln.isupper() and len(ln.strip()) < 80))`. -/
def isHeadingLine (ln : String) : Bool :=
  pyStrip ln ≠ "" &&
    (pyEndsWith (pyStrip ln) ":" ||
      (pyIsUpper ln && (pyStrip ln).toList.length < 80))

/-- Scan state of `split_text_structure`. -/
structure StsState where
  page : Int
  heads : List String
  current : List String
  blocks : List SubBlock
deriving DecidableEq

/-- Append the accumulated lines as one structural sub-block
(`blocks.append({"page": .., "heading": " / ".join(current_head[-3:]),
"text": "\n".join(current).strip()})`). -/
def stsFlush (st : StsState) : List SubBlock :=
  st.blocks ++ [⟨st.page, pyJoin " / " (lastThree st.heads),
    pyStrip (pyJoin "\n" st.current)⟩]

/-- One line of the `split_text_structure` scan (lines 165-177). -/
def stsStep (st : StsState) (ln : String) : StsState :=
  if pyStartsWith ln "[[PAGE:" then
    let blocks := if st.current ≠ [] then stsFlush st else st.blocks
    let page := (parsePage ln).getD st.page
    ⟨page, st.heads, [], blocks⟩
  else
    let heads := if isHeadingLine ln
      then st.heads ++ [pyStripColon (pyStrip ln)] else st.heads
    ⟨st.page, heads, st.current ++ [ln], st.blocks⟩

/-- Source `ingest.py` lines 159-183 (`split_text_structure`); the trailing
`type = "text"` tag is implicit (every produced sub-block is text). -/
def split_text_structure (text : String) : List SubBlock :=
  let fin := (pySplitlines text).foldl stsStep ⟨1, [], [], []⟩
  if fin.current ≠ [] then stsFlush fin else fin.blocks

/-- A chunk dict as produced by `chunk_blocks`.  Keys a text chunk's dict
never holds (`table_rows`, `table_id`, `table_chunk_index`) are modelled by
the defaults the later `dict.get` calls in `upsert` would supply. -/
structure Chunk where
  content_type : String
  text : String
  pages : List Int := []
  heading : String := ""
  table_rows : List (List String) := []
  table_id : String := ""
  table_chunk_index : Int := -1
  chunk_index : Nat := 0
deriving DecidableEq

/-- Heading stored on a flushed text chunk (line 218):
`" / ".join([h for h in buf_headings if h])[:300]`. -/
def headingOf (heads : List String) : String :=
  pyTake (pyJoin " / " (heads.filter (fun h => h ≠ ""))) 300

/-- State of the rolling text-packing loop of `chunk_blocks`:
`chunks`, `buf`, `buf_pages`, `buf_headings`, `cur_tokens`. -/
structure PackState where
  chunks : List Chunk
  buf : List String
  pages : List Int
  heads : List String
  cur : Nat
deriving DecidableEq

/-- The chunk `flush_text` emits from a state (lines 212-219). -/
def textChunkOf (st : PackState) : Chunk :=
  { content_type := "text", text := pyStrip (pyJoin "\n" st.buf),
    pages := pySortedSet st.pages, heading := headingOf st.heads }

/-- Source `ingest.py` lines 208-220 (`flush_text`): a no-op on an empty
buffer; otherwise emit the joined text as a chunk when it strips non-blank,
and reset the buffer state either way. -/
def flushText (st : PackState) : PackState :=
  if st.buf = [] then st
  else
    let chunks := if pyStrip (pyJoin "\n" st.buf) ≠ ""
      then st.chunks ++ [textChunkOf st] else st.chunks
    ⟨chunks, [], [], [], 0⟩

/-- One iteration of the packing loop of `chunk_blocks` (lines 222-240),
parameterized by the suffix-slice function used for the overlap tail so that
the spec-literal variant can be stated; `chunk_blocks` instantiates `tailOf`
with Python's `old[-keep:]` (`pyTailSlice`).  The overlap ratio is the exact
fraction `ovN/ovD` (`int(len(old) * 0.18)` equals `18*len/100`, see header). -/
def packStepT (tailOf : String → Nat → String) (minTok maxTok ovN ovD : Nat)
    (st : PackState) (b : SubBlock) : PackState :=
  let btxt := pyStrip b.text
  if btxt = "" then st
  else
    let btok := tokenize_len btxt
    let st2 :=
      if maxTok < st.cur + btok ∧ minTok ≤ st.cur then
        let old := pyJoin "\n" st.buf
        let keep := ovN * old.toList.length / ovD
        let tl := tailOf old keep
        let st3 := flushText st
        if pyStrip tl ≠ "" then ⟨st3.chunks, [tl], [], [], tokenize_len tl⟩
        else st3
      else st
    ⟨st2.chunks, st2.buf ++ [btxt], st2.pages ++ [b.page],
      st2.heads ++ [b.heading], st2.cur + btok⟩

/-- The text-packing phase of `chunk_blocks`: fold the structural sub-blocks
from the empty state, then flush the final buffer. -/
def packTextT (tailOf : String → Nat → String) (minTok maxTok ovN ovD : Nat)
    (structured : List SubBlock) : List Chunk :=
  (flushText (structured.foldl (packStepT tailOf minTok maxTok ovN ovD)
    ⟨[], [], [], [], 0⟩)).chunks

/-- Source `ingest.py` lines 273-274 (`_sanitize_cell`) on string cells. -/
def sanitize_cell (s : String) : String := pyStrip (pyReplaceTab s)

/-- Source `ingest.py` lines 276-291 (`_render_table_markdown`).  The local
`cols` variable of the source is computed but never used and is omitted. -/
def render_table_markdown (rows : List (List String)) (maxCols : Option Nat) :
    String :=
  if rows = [] then ""
  else
    let rows2 : List (List String) := match maxCols with
      | some m => rows.map (fun r => r.take m)
      | none => rows
    let head := rows2.headD []
    let headerLine :=
      "| " ++ pyJoin " | " (head.map (fun c =>
        if sanitize_cell c = "" then " " else sanitize_cell c)) ++ " |"
    let sep := if head ≠ []
      then "| " ++ pyJoin " | " (List.replicate head.length "---") ++ " |"
      else ""
    let body := (rows2.drop 1).map (fun r =>
      "| " ++ pyJoin " | " (r.map sanitize_cell) ++ " |")
    let parts := if head ≠ [] then headerLine :: sep :: body else body
    pyJoin "\n" (parts.filter (fun p => p ≠ ""))

/-- The row-accumulation loop of `_chunk_table_rows` (lines 319-328),
carrying the emitted groups, the current buffer and its token count. -/
def tableLoop (header : List String) (minTok maxTok : Nat) :
    List (List String) → List (List (List String)) → List (List String) →
      Nat → List (List (List String))
  | [], groups, buf, _ =>
    if (if header ≠ [] then 1 else 0) < buf.length then groups ++ [buf]
    else groups
  | r :: rs, groups, buf, cur =>
    let rt := row_tokens r
    if maxTok < cur + rt ∧ minTok ≤ cur ∧
        (if header ≠ [] then 1 else 0) < buf.length then
      let seedBuf := if header ≠ [] then [header] else []
      let seedTok := if header ≠ [] then row_tokens header else 0
      tableLoop header minTok maxTok rs (groups ++ [buf]) (seedBuf ++ [r])
        (seedTok + rt)
    else tableLoop header minTok maxTok rs groups (buf ++ [r]) (cur + rt)

/-- Source `ingest.py` lines 294-329 (`_chunk_table_rows`): row 0 is the
header; the buffer is seeded with it (when non-empty) and reseeded after
every flush. -/
def chunk_table_rows (rows : List (List String)) (minTok maxTok : Nat) :
    List (List (List String)) :=
  match rows with
  | [] => []
  | header :: data =>
    let seedBuf := if header ≠ [] then [header] else []
    let seedTok := if header ≠ [] then row_tokens header else 0
    tableLoop header minTok maxTok data [] seedBuf seedTok

/-- Table chunks produced from one table block (`chunk_blocks` lines
244-263): derived budgets `max(8, min_tok // 4)` / `max(32, max_tok // 2)`
(the float products are exact), markdown render capped at 12 columns, blank
renders dropped. -/
def tableChunksOf (minTok maxTok : Nat) (tb : Block) : List Chunk :=
  let rcs := chunk_table_rows tb.rows (max 8 (minTok / 4)) (max 32 (maxTok / 2))
  rcs.enum.filterMap (fun p =>
    let md := render_table_markdown p.2 (some (min tb.n_cols 12))
    if pyStrip md = "" then none
    else
      some { content_type := "table", text := md, table_rows := p.2,
             pages := [tb.page], heading := tb.heading,
             table_id := tb.table_id, table_chunk_index := (p.1 : Int) })

/-- Final enumeration of `chunk_blocks` (lines 267-268):
`for i, c in enumerate(out): c["chunk_index"] = i`. -/
def assignIdx : Nat → List Chunk → List Chunk
  | _, [] => []
  | i, c :: cs => { c with chunk_index := i } :: assignIdx (i + 1) cs

/-- Source `ingest.py` lines 186-269 (`chunk_blocks`), parameterized by the
overlap-tail slice function (see `packStepT`). -/
def chunk_blocksT (tailOf : String → Nat → String) (blocks : List Block)
    (minTok maxTok ovN ovD : Nat) : List Chunk :=
  let textBlocks := blocks.filter (fun b => b.type = "text" ∧ pyStrip b.text ≠ "")
  let structured := (textBlocks.map (fun tb => split_text_structure tb.text)).flatten
  let textChunks := packTextT tailOf minTok maxTok ovN ovD structured
  let tableBlocks := blocks.filter (fun b => b.type = "table" ∧ b.rows ≠ [])
  let tableChunks := (tableBlocks.map (tableChunksOf minTok maxTok)).flatten
  assignIdx 0 ((textChunks ++ tableChunks).filter
    (fun c => 4 ≤ tokenize_len c.text))

/-- `chunk_blocks` proper: the overlap tail is Python's `old[-keep_chars:]`
slice (whole string when `keep_chars = 0`). -/
def chunk_blocks (blocks : List Block) (minTok maxTok ovN ovD : Nat) :
    List Chunk :=
  chunk_blocksT pyTailSlice blocks minTok maxTok ovN ovD

/-- Spec-literal variant of `chunk_blocks`: the overlap tail is the plain
character suffix of length `keep_chars` (so empty when `keep_chars = 0`),
exactly as the claim's words describe it. -/
def chunk_blocksSpec (blocks : List Block) (minTok maxTok ovN ovD : Nat) :
    List Chunk :=
  chunk_blocksT specTailSlice blocks minTok maxTok ovN ovD

/-- The overlap seed the amended C4 claim describes for a pack state: with
`old` the flushed buffer's joined text and `keep = ovN*len(old)/ovD`, the
last `keep` characters of `old` when `keep > 0`, and the WHOLE of `old` when
`keep = 0` (Python's `old[-0:]` slice). -/
def overlapSeed (ovN ovD : Nat) (st : PackState) : String :=
  let old := pyJoin "\n" st.buf
  let keep := ovN * old.toList.length / ovD
  if keep = 0 then old else specTailSlice old keep

/-- Source `ingest.py` line 475: the persisted chunk ids
`uuid5(NAMESPACE_URL, f"{doc_id}:{chunk_index}")`, with the external hash
abstracted as a function parameter. -/
def upsertIds (uuid5 : String → String) (docId : String)
    (chunks : List Chunk) : List String :=
  chunks.map (fun c => uuid5 (docId ++ ":" ++ toString c.chunk_index))

/-- Ids produced by one ingestion of a parsed document (`upsert`, lines
457-475): `doc_id = sha1(doc_path)` and chunking with the configured
defaults `target_tokens_min = 400`, `target_tokens_max = 800`,
`overlap_ratio = 0.18`. -/
def ingestIds (uuid5 sha1 : String → String) (path : String)
    (blocks : List Block) : List String :=
  upsertIds uuid5 (sha1 path) (chunk_blocks blocks 400 800 18 100)


/-- C5 counterexample: on the three-word string `"a b c"` the code computes
`max(1, int(3 * 1.3)) = 3` (truncation) while the claim's formula
`max(1, round(3 * 1.3)) = 4` rounds; the row-cost estimate likewise
truncates `3 * 1.2` to `3` while the claim's formula rounds to `4`. -/
theorem tokenize_len_round_cex :
    tokenize_len "a b c" ≠ specTokenizeLenRound "a b c" ∧
    row_tokens ["a", "b", "c"] ≠ specRowTokensRound ["a", "b", "c"] := by
  have h1 : tokenize_len "a b c" = 3 := by decide
  have h2 : row_tokens ["a", "b", "c"] = 3 := by decide
  have hw : wordCount "a b c" = 3 := by decide
  have hw2 : wordCount (pyJoin " " ["a", "b", "c"]) = 3 := by decide
  have h3 : specTokenizeLenRound "a b c" = 4 := by
    unfold specTokenizeLenRound
    rw [hw]
    norm_num [round_eq]
    rfl
  have h4 : specRowTokensRound ["a", "b", "c"] = 4 := by
    unfold specRowTokensRound
    rw [hw2]
    norm_num [round_eq]
    rfl
  rw [h1, h2, h3, h4]
  exact ⟨by omega, by omega⟩

/-- C5 amended: for every string, the chunker's estimated token count equals
`max(1, ⌊wordCount * 1.3⌋)` (truncation toward zero, not rounding), and for
every table row the estimated row token cost equals
`max(1, ⌊wordCount(joined cells) * 1.2⌋)`. -/
theorem tokenize_len_floor :
    (∀ s : String, tokenize_len s = max 1 ⌊(wordCount s : ℚ) * (13 / 10)⌋₊) ∧
    (∀ r : List String,
      row_tokens r = max 1 ⌊(wordCount (pyJoin " " r) : ℚ) * (6 / 5)⌋₊) := by
  constructor
  · intro s
    have h : (wordCount s : ℚ) * (13 / 10)
        = ((13 * wordCount s : ℕ) : ℚ) / ((10 : ℕ) : ℚ) := by
      push_cast; ring
    rw [h, Nat.floor_div_nat, Nat.floor_natCast]
    rfl
  · intro r
    have h : (wordCount (pyJoin " " r) : ℚ) * (6 / 5)
        = ((6 * wordCount (pyJoin " " r) : ℕ) : ℚ) / ((5 : ℕ) : ℚ) := by
      push_cast; ring
    rw [h, Nat.floor_div_nat, Nat.floor_natCast]
    rfl


/-- C7: the ingestion payload can carry `content_type = "table"`, but
`dense_search` (retrieve.py lines 32-42) drops that field when building the
candidate dict, so `t.get("content_type")` is `None` for every rerank
candidate and the `[TABLE]\n` marker promised by `retrieve`'s own docstring
is never prepended.  At the failing input below — a dense hit whose payload
is a table chunk — the built passage lacks the marker; the last conjunct
shows the marker would appear had the field been carried over. -/
theorem table_payload_prefix_dropped :
    dense_search_out [⟨"u", 1, ⟨"d", "T", "s", [], 0, some "table"⟩⟩] =
      [{ id := "u", score := 1, doc_id := "d", doc_title := "T",
         section_title := "s", page_nums := [], chunk_index := 0,
         content_type := none }] ∧
    rerankPassage (fun _ => "cells")
      { id := "u", score := 1, doc_id := "d", doc_title := "T",
        section_title := "s", page_nums := [], chunk_index := 0,
        content_type := none } = "[T] s\ncells" ∧
    rerankPassage (fun _ => "cells")
      { id := "u", score := 1, doc_id := "d", doc_title := "T",
        section_title := "s", page_nums := [], chunk_index := 0,
        content_type := some "table" } = "[T] s\n[TABLE]\ncells" := by
  exact ⟨rfl, rfl, rfl⟩

/-- C10: `_diverse_head`'s second pass restarts from the head of `items`
without skipping candidates already taken in the first pass.  On two
candidates from one document with `limit = 3` the output repeats the first
candidate and is LONGER than the input list, refuting both parts of the
claim (each input candidate at most once; output never longer than input). -/
theorem diverse_head_duplicate_eval :
    diverse_head [candA, candA2] 3 = [candA, candA, candA2] ∧
    [candA, candA2].length < (diverse_head [candA, candA2] 3).length := by
  refine ⟨rfl, ?_⟩
  have h : diverse_head [candA, candA2] 3 = [candA, candA, candA2] := rfl
  rw [h]
  simp

/-- Invariant of `_diverse_head`'s first pass: starting from an output whose
document ids are exactly `seen` and duplicate-free, an early return yields
exactly `limit` candidates with pairwise-distinct documents, while a
non-early finish yields a duplicate-free output covering every incoming
document and strictly shorter than a positive `limit`. -/
theorem dhPass1_spec (limit : Nat) (items : List Cand) :
    ∀ (out : List Cand) (seen : List String),
      seen = out.map Cand.doc_id →
      (out.map Cand.doc_id).Nodup →
      (limit = 0 ∨ out.length < limit) →
      (∀ res, dhPass1 limit items out seen = (res, true) →
          res.length = limit ∧ (res.map Cand.doc_id).Nodup) ∧
      (∀ res, dhPass1 limit items out seen = (res, false) →
          (res.map Cand.doc_id).Nodup ∧
          (∀ d ∈ out.map Cand.doc_id, d ∈ res.map Cand.doc_id) ∧
          (∀ it ∈ items, it.doc_id ∈ res.map Cand.doc_id) ∧
          (∀ d ∈ res.map Cand.doc_id,
            d ∈ out.map Cand.doc_id ∨ d ∈ items.map Cand.doc_id) ∧
          (limit = 0 ∨ res.length < limit)) := by
  induction items with
  | nil =>
    intro out seen hseen hnd hlim
    constructor
    · intro res h
      simp [dhPass1] at h
    · intro res h
      simp [dhPass1] at h
      obtain ⟨rfl⟩ := h
      exact ⟨hnd, fun d hd => hd, by simp, fun d hd => Or.inl hd, hlim⟩
  | cons it rest ih =>
    intro out seen hseen hnd hlim
    by_cases hmem : it.doc_id ∈ seen
    · have heq : dhPass1 limit (it :: rest) out seen = dhPass1 limit rest out seen := by
        simp [dhPass1, hmem]
      obtain ⟨ih1, ih2⟩ := ih out seen hseen hnd hlim
      refine ⟨fun res h => ih1 res (heq ▸ h), fun res h => ?_⟩
      obtain ⟨a, b, c, d, e⟩ := ih2 res (heq ▸ h)
      refine ⟨a, b, ?_, ?_, e⟩
      · intro x hx
        rcases List.mem_cons.1 hx with rfl | hx
        · exact b x.doc_id (hseen ▸ hmem)
        · exact c x hx
      · intro x hx
        rcases d x hx with h1 | h1
        · exact Or.inl h1
        · exact Or.inr (by simp [h1])
    · have hdoc : it.doc_id ∉ out.map Cand.doc_id := by rw [← hseen]; exact hmem
      by_cases hlen : (out ++ [it]).length = limit
      · have heq : dhPass1 limit (it :: rest) out seen = (out ++ [it], true) := by
          show (if it.doc_id ∈ seen then dhPass1 limit rest out seen
            else if (out ++ [it]).length = limit then (out ++ [it], true)
            else dhPass1 limit rest (out ++ [it]) (seen ++ [it.doc_id])) = _
          rw [if_neg hmem, if_pos hlen]
        have hnd2 : ((out ++ [it]).map Cand.doc_id).Nodup := by
          simp only [List.map_append, List.map_cons, List.map_nil]
          rw [List.nodup_append]
          exact ⟨hnd, List.nodup_singleton _, by simpa using hdoc⟩
        constructor
        · intro res h
          rw [heq] at h
          obtain ⟨rfl, -⟩ := Prod.mk.injEq .. ▸ h
          exact ⟨hlen, hnd2⟩
        · intro res h
          rw [heq] at h
          simp at h
      · have heq : dhPass1 limit (it :: rest) out seen
            = dhPass1 limit rest (out ++ [it]) (seen ++ [it.doc_id]) := by
          show (if it.doc_id ∈ seen then dhPass1 limit rest out seen
            else if (out ++ [it]).length = limit then (out ++ [it], true)
            else dhPass1 limit rest (out ++ [it]) (seen ++ [it.doc_id])) = _
          rw [if_neg hmem, if_neg hlen]
        have hseen2 : seen ++ [it.doc_id] = (out ++ [it]).map Cand.doc_id := by
          simp [hseen]
        have hnd2 : ((out ++ [it]).map Cand.doc_id).Nodup := by
          simp only [List.map_append, List.map_cons, List.map_nil]
          rw [List.nodup_append]
          exact ⟨hnd, List.nodup_singleton _, by simpa using hdoc⟩
        have hlim2 : limit = 0 ∨ (out ++ [it]).length < limit := by
          rcases hlim with h0 | hlt
          · exact Or.inl h0
          · right
            have : (out ++ [it]).length = out.length + 1 := by simp
            omega
        obtain ⟨ih1, ih2⟩ := ih (out ++ [it]) (seen ++ [it.doc_id]) hseen2 hnd2 hlim2
        refine ⟨fun res h => ih1 res (heq ▸ h), fun res h => ?_⟩
        obtain ⟨a, b, c, d, e⟩ := ih2 res (heq ▸ h)
        have hsub : ∀ x ∈ out.map Cand.doc_id, x ∈ res.map Cand.doc_id := by
          intro x hx
          exact b x (by simp [hx])
        refine ⟨a, hsub, ?_, ?_, e⟩
        · intro x hx
          rcases List.mem_cons.1 hx with rfl | hx
          · exact b x.doc_id (by simp)
          · exact c x hx
        · intro x hx
          rcases d x hx with h1 | h1
          · rw [List.map_append, List.mem_append] at h1
            rcases h1 with h1 | h1
            · exact Or.inl h1
            · simp at h1
              exact Or.inr (by simp [h1])
          · exact Or.inr (by simp [h1])

/-- C6: the diversity-selected final list has length at most `finalK`, and
whenever `finalK` does not exceed the number of distinct `doc_id`s among the
input candidates the selected list never contains two results with the same
`doc_id`. -/
theorem diverse_head_length_nodup (items : List Cand) (limit : Nat) :
    (diverse_head items limit).length ≤ limit ∧
    (limit ≤ ((items.map Cand.doc_id).dedup).length →
      ((diverse_head items limit).map Cand.doc_id).Nodup) := by
  obtain ⟨h1, h2⟩ := dhPass1_spec limit items [] [] rfl (by simp)
    (by rcases Nat.eq_zero_or_pos limit with h | h
        · exact Or.inl h
        · exact Or.inr (by simpa using h))
  unfold diverse_head
  rcases hrun : dhPass1 limit items [] [] with ⟨res, flag⟩
  cases flag with
  | true =>
    obtain ⟨hlen, hnd⟩ := h1 res hrun
    exact ⟨le_of_eq hlen, fun _ => hnd⟩
  | false =>
    obtain ⟨hnd, -, hcover, hsrc, hlim⟩ := h2 res hrun
    constructor
    · exact List.length_take_le limit (dhPass2 limit items res)
    · intro hK
      rcases hlim with h0 | hlt
      · subst h0
        simp
      · exfalso
        have hsubset : (items.map Cand.doc_id).toFinset ⊆ (res.map Cand.doc_id).toFinset := by
          intro d hd
          rw [List.mem_toFinset] at hd ⊢
          obtain ⟨x, hx, rfl⟩ := List.mem_map.1 hd
          exact hcover x hx
        have hcard : (items.map Cand.doc_id).dedup.length
            ≤ (res.map Cand.doc_id).dedup.length := by
          rw [← List.card_toFinset, ← List.card_toFinset]
          exact Finset.card_le_card hsubset
        rw [List.Nodup.dedup hnd, List.length_map] at hcard
        omega

/-- C6 witness: on two candidates from distinct documents with `finalK = 2`
(equal to the number of distinct documents), the selected list repeats no
document. -/
theorem diverse_head_length_nodup_witness :
    ((diverse_head [candA, candB] 2).map Cand.doc_id).Nodup :=
  (diverse_head_length_nodup [candA, candB] 2).2 (by decide)

/-- When `pid` occurs in no candidate's id, the rank dict lookup misses. -/
theorem lastIdx_not_mem (pid : String) (l : List Cand)
    (h : pid ∉ l.map Cand.id) : lastIdx pid l = none := by
  induction l with
  | nil => rfl
  | cons c rest ih =>
    rw [List.map_cons, List.mem_cons] at h
    push_neg at h
    rw [lastIdx, ih h.2]
    simp only [if_neg (fun he : c.id = pid => h.1 he.symm)]

/-- For duplicate-free ids, the dict-overwrite rank (last occurrence) agrees
with the first-occurrence position. -/
theorem lastIdx_eq_posOf (pid : String) (l : List Cand)
    (h : (l.map Cand.id).Nodup) : lastIdx pid l = posOf pid (l.map Cand.id) := by
  induction l with
  | nil => rfl
  | cons c rest ih =>
    rw [List.map_cons, List.nodup_cons] at h
    obtain ⟨hni, hnd⟩ := h
    by_cases hc : c.id = pid
    · subst hc
      rw [lastIdx, lastIdx_not_mem _ _ hni]
      simp [posOf]
    · rw [lastIdx, ih hnd, List.map_cons, posOf]
      cases posOf pid (rest.map Cand.id) <;> simp [hc]

/-- A list whose ids contain `pid` yields a `find?` hit with that id. -/
theorem find_by_id (pid : String) (l : List Cand) (h : pid ∈ l.map Cand.id) :
    ∃ c, l.find? (fun x => x.id == pid) = some c ∧ c.id = pid := by
  induction l with
  | nil => simp at h
  | cons c rest ih =>
    by_cases hc : c.id = pid
    · exact ⟨c, List.find?_cons_of_pos _ (by simp [hc]), hc⟩
    · rw [List.map_cons, List.mem_cons] at h
      rcases h with h | h
      · exact absurd h.symm hc
      · obtain ⟨d, hd, hid⟩ := ih h
        exact ⟨d, by rw [List.find?_cons_of_neg _ (by simp [hc])]; exact hd, hid⟩

/-- The metadata chosen for a fused id carries that id. -/
theorem fuseMeta_id (dense sparse : List Cand) (pid : String) (m : Cand)
    (h : fuseMeta dense sparse pid = some m) : m.id = pid := by
  unfold fuseMeta at h
  cases hfd : dense.find? (fun x => x.id == pid) with
  | some c =>
    rw [hfd] at h
    obtain rfl : c = m := by injection h
    have := List.find?_some hfd
    simpa using this
  | none =>
    rw [hfd] at h
    have := List.find?_some h
    simpa using this

/-- C1: for every candidate id present in either ranked list, the fused
output contains an entry for it whose fusion score is
`1/(60 + rank_dense) + 1/(60 + rank_sparse)` — `rank_X` being the 0-based
position in list `X`, or `10000` when absent — and the fused output is
sorted by non-increasing fusion score.  Hypotheses: each ranked list has
duplicate-free ids, and `idOrder` enumerates the union id set. -/
theorem rrf_fuse_score_formula_sorted (dense sparse : List Cand)
    (idOrder : List String)
    (hd : (dense.map Cand.id).Nodup) (hs : (sparse.map Cand.id).Nodup)
    (ho : ∀ pid : String,
      pid ∈ idOrder ↔ pid ∈ dense.map Cand.id ∨ pid ∈ sparse.map Cand.id) :
    (∀ pid, (pid ∈ dense.map Cand.id ∨ pid ∈ sparse.map Cand.id) →
      ∃ f ∈ rrf_fuse idOrder dense sparse 60, f.cand.id = pid ∧
        f.rrf = 1 / (60 + claimRank dense pid) + 1 / (60 + claimRank sparse pid)) ∧
    (rrf_fuse idOrder dense sparse 60).Sorted fusedGE := by
  have hrank : ∀ (l : List Cand), (l.map Cand.id).Nodup →
      ∀ pid, rankVal l pid = claimRank l pid := by
    intro l hnd pid
    unfold rankVal claimRank
    rw [lastIdx_eq_posOf pid l hnd]
    cases posOf pid (l.map Cand.id) <;> simp
  constructor
  · intro pid hpid
    have hmemo : pid ∈ idOrder := (ho pid).2 hpid
    have hmeta : ∃ m, fuseMeta dense sparse pid = some m := by
      unfold fuseMeta
      rcases hpid with h | h
      · obtain ⟨c, hc, -⟩ := find_by_id pid dense h
        exact ⟨c, by rw [hc]⟩
      · cases hfd : dense.find? (fun x => x.id == pid) with
        | some c => exact ⟨c, rfl⟩
        | none =>
          obtain ⟨c, hc, -⟩ := find_by_id pid sparse h
          exact ⟨c, hc⟩
    obtain ⟨m, hm⟩ := hmeta
    have hpre : (⟨m, rrfScore 60 dense sparse pid⟩ : Fused)
        ∈ fusedPre idOrder dense sparse 60 :=
      List.mem_filterMap.2 ⟨pid, hmemo, by rw [hm]; rfl⟩
    refine ⟨⟨m, rrfScore 60 dense sparse pid⟩,
      ((List.perm_insertionSort fusedGE _).mem_iff).2 hpre,
      fuseMeta_id dense sparse pid m hm, ?_⟩
    show rrfScore 60 dense sparse pid = _
    unfold rrfScore
    rw [hrank dense hd, hrank sparse hs]
  · exact List.sorted_insertionSort fusedGE _

/-- C1 witness: one dense-only candidate and one sparse-only candidate; the
fused output carries an entry for id `A` with score `1/60 + 1/10060`. -/
theorem rrf_fuse_score_formula_sorted_witness :
    ∃ f ∈ rrf_fuse ["A", "B"] [candA] [candB] 60,
      f.cand.id = "A" ∧ f.rrf = 1 / 60 + 1 / 10060 := by
  obtain ⟨f, hf, hid, hval⟩ :=
    (rrf_fuse_score_formula_sorted [candA] [candB] ["A", "B"]
      (by decide) (by decide)
      (by intro pid
          show pid ∈ ["A", "B"] ↔ pid ∈ ["A"] ∨ pid ∈ ["B"]
          simp [List.mem_cons])).1 "A" (Or.inl (by decide))
  refine ⟨f, hf, hid, ?_⟩
  rw [hval]
  have h1 : claimRank [candA] "A" = ((0 : Nat) : ℚ) := rfl
  have h2 : claimRank [candB] "A" = 10000 := rfl
  rw [h1, h2]
  norm_num

/-- C8 counterexample: a dense-only hit `A` (dense rank 0) and a sparse-only
hit `B` (sparse rank 0) receive the equal score `1/60 + 1/10060`.  Both
`["A", "B"]` and `["B", "A"]` are legitimate enumerations of the id set
`set(rd) | set(rs)` (Python fixes no order, and string hashing is randomized
across processes), yet they produce different output orders — and under the
second enumeration the tie is resolved AGAINST the dense-rank rule, `B`
before `A`.  So the output order is not a function of the two rankings, and
ties are not broken by original dense rank. -/
theorem rrf_fuse_enum_order_cex :
    (rrf_fuse ["A", "B"] [candA] [candB] 60).map (fun f => f.cand.id)
      = ["A", "B"] ∧
    (rrf_fuse ["B", "A"] [candA] [candB] 60).map (fun f => f.cand.id)
      = ["B", "A"] := by
  have escoreA : rrfScore 60 [candA] [candB] "A"
      = 1 / (60 + ((0 : Nat) : ℚ)) + 1 / (60 + ((10000 : Nat) : ℚ)) := rfl
  have escoreB : rrfScore 60 [candA] [candB] "B"
      = 1 / (60 + ((10000 : Nat) : ℚ)) + 1 / (60 + ((0 : Nat) : ℚ)) := rfl
  have hBA : fusedGE ⟨candA, rrfScore 60 [candA] [candB] "A"⟩
      ⟨candB, rrfScore 60 [candA] [candB] "B"⟩ := by
    show rrfScore 60 [candA] [candB] "B" ≤ rrfScore 60 [candA] [candB] "A"
    rw [escoreA, escoreB]; push_cast; ring_nf
    exact le_refl _
  have hAB : fusedGE ⟨candB, rrfScore 60 [candA] [candB] "B"⟩
      ⟨candA, rrfScore 60 [candA] [candB] "A"⟩ := by
    show rrfScore 60 [candA] [candB] "A" ≤ rrfScore 60 [candA] [candB] "B"
    rw [escoreA, escoreB]; push_cast; ring_nf
    exact le_refl _
  have hsort : ∀ x y : Fused, fusedGE x y → sortByRrf [x, y] = [x, y] := by
    intro x y h
    simp [sortByRrf, List.insertionSort, List.orderedInsert, h]
  constructor
  · have hpre : fusedPre ["A", "B"] [candA] [candB] 60
        = [⟨candA, rrfScore 60 [candA] [candB] "A"⟩,
           ⟨candB, rrfScore 60 [candA] [candB] "B"⟩] := rfl
    rw [rrf_fuse, hpre, hsort _ _ hBA]
    rfl
  · have hpre : fusedPre ["B", "A"] [candA] [candB] 60
        = [⟨candB, rrfScore 60 [candA] [candB] "B"⟩,
           ⟨candA, rrfScore 60 [candA] [candB] "A"⟩] := rfl
    rw [rrf_fuse, hpre, hsort _ _ hAB]
    rfl

/-- Stability of one ordered insertion: restricted to any fixed score `q`,
inserting `a` prepends it when its score is `q` and changes nothing else. -/
theorem filter_orderedInsert_rrf (q : ℚ) (a : Fused) (m : List Fused) :
    (List.orderedInsert fusedGE a m).filter (fun f => decide (f.rrf = q)) =
      if a.rrf = q then a :: m.filter (fun f => decide (f.rrf = q))
      else m.filter (fun f => decide (f.rrf = q)) := by
  induction m with
  | nil =>
    by_cases haq : a.rrf = q <;> simp [List.orderedInsert, List.filter_cons, haq]
  | cons b m0 ih =>
    rw [List.orderedInsert]
    by_cases hab : fusedGE a b
    · rw [if_pos hab]
      by_cases haq : a.rrf = q <;> simp [List.filter_cons, haq]
    · rw [if_neg hab]
      have hb : ¬ (b.rrf ≤ a.rrf) := hab
      by_cases haq : a.rrf = q
      · have hbq : ¬ (b.rrf = q) := by
          intro h
          exact hb (le_of_eq (haq ▸ h))
        simp [List.filter_cons, hbq, ih, haq]
      · simp [List.filter_cons, ih, haq]

/-- C8 amended: the fused output order is a deterministic function of the
two rankings TOGETHER WITH the enumeration order of the candidate-id set
(supplied by Python's set iteration, which the rankings do not determine);
candidates with equal fusion score appear in exactly that enumeration order
(the sort is stable), not necessarily by original dense rank. -/
theorem rrf_fuse_tie_enum_order (idOrder : List String)
    (dense sparse : List Cand) (k q : ℚ) :
    (rrf_fuse idOrder dense sparse k).filter (fun f => decide (f.rrf = q)) =
      (fusedPre idOrder dense sparse k).filter (fun f => decide (f.rrf = q)) := by
  show (List.insertionSort fusedGE _).filter _ = _
  generalize fusedPre idOrder dense sparse k = l
  induction l with
  | nil => rfl
  | cons a l0 ih =>
    rw [List.insertionSort, filter_orderedInsert_rrf, ih]
    by_cases haq : a.rrf = q <;> simp [List.filter_cons, haq]

/-- Enumeration assigns the positions `i, i+1, ...` as chunk indexes. -/
theorem assignIdx_map_index (l : List Chunk) :
    ∀ i : Nat, (assignIdx i l).map Chunk.chunk_index = List.range' i l.length := by
  induction l with
  | nil => intro i; rfl
  | cons c cs ih =>
    intro i
    show i :: (assignIdx (i + 1) cs).map Chunk.chunk_index
      = i :: List.range' (i + 1) cs.length
    rw [ih (i + 1)]

/-- Enumeration preserves the list length. -/
theorem assignIdx_length (l : List Chunk) :
    ∀ i : Nat, (assignIdx i l).length = l.length := by
  induction l with
  | nil => intro i; rfl
  | cons c cs ih =>
    intro i
    show (assignIdx (i + 1) cs).length + 1 = cs.length + 1
    rw [ih (i + 1)]

/-- Enumeration only rewrites `chunk_index`; each output chunk keeps the
text of some input chunk. -/
theorem mem_assignIdx_text (l : List Chunk) :
    ∀ (i : Nat) (c : Chunk), c ∈ assignIdx i l → ∃ c0 ∈ l, c.text = c0.text := by
  induction l with
  | nil => intro i c h; simp [assignIdx] at h
  | cons d cs ih =>
    intro i c h
    rcases List.mem_cons.1 h with rfl | h2
    · exact ⟨d, List.mem_cons_self d cs, rfl⟩
    · obtain ⟨c0, hc0, ht⟩ := ih (i + 1) c h2
      exact ⟨c0, List.mem_cons_of_mem d hc0, ht⟩

/-- C2: every chunk returned by `chunk_blocks` (for any budgets and overlap
fraction, hence in particular the chunks `upsert` persists) has non-empty
text estimated at `≥ 4` tokens, and the `chunk_index` values over the
returned list are exactly `0, 1, 2, ...` in list order — assigned after the
under-4-token filter. -/
theorem chunk_blocks_min_tokens_dense_index (blocks : List Block)
    (minTok maxTok ovN ovD : Nat) :
    (∀ c ∈ chunk_blocks blocks minTok maxTok ovN ovD,
        c.text ≠ "" ∧ 4 ≤ tokenize_len c.text) ∧
    (chunk_blocks blocks minTok maxTok ovN ovD).map Chunk.chunk_index =
      List.range (chunk_blocks blocks minTok maxTok ovN ovD).length := by
  have main : ∀ l : List Chunk,
      (∀ c ∈ assignIdx 0 (l.filter (fun c => 4 ≤ tokenize_len c.text)),
          c.text ≠ "" ∧ 4 ≤ tokenize_len c.text) ∧
      (assignIdx 0 (l.filter (fun c => 4 ≤ tokenize_len c.text))).map
          Chunk.chunk_index =
        List.range (assignIdx 0
          (l.filter (fun c => 4 ≤ tokenize_len c.text))).length := by
    intro l
    constructor
    · intro c hc
      obtain ⟨c0, hc0, htext⟩ := mem_assignIdx_text _ 0 c hc
      rw [List.mem_filter] at hc0
      have h4 : 4 ≤ tokenize_len c0.text := by
        have := hc0.2
        simpa using this
      refine ⟨?_, htext ▸ h4⟩
      intro hemp
      rw [hemp] at htext
      rw [← htext] at h4
      have h1 : tokenize_len "" = 1 := rfl
      omega
    · rw [assignIdx_map_index, assignIdx_length, List.range_eq_range']
  exact main _

/-- C2 witness: a single five-word text block yields one chunk whose text is
non-empty with an estimate of at least 4 tokens. -/
theorem chunk_blocks_min_tokens_dense_index_witness :
    (⟨"text", "a b c d e", [1], "", [], "", -1, 0⟩ : Chunk).text ≠ "" ∧
    4 ≤ tokenize_len (⟨"text", "a b c d e", [1], "", [], "", -1, 0⟩ : Chunk).text :=
  (chunk_blocks_min_tokens_dense_index
    [⟨"text", 1, "", "a b c d e", [], 0, ""⟩] 400 800 18 100).1
    ⟨"text", "a b c d e", [1], "", [], "", -1, 0⟩ (by decide)

/-- Persisted ids over an enumerated chunk list are the hashes of
`docId:i` for `i` running over the positions. -/
theorem upsertIds_assignIdx (u : String → String) (docId : String)
    (l : List Chunk) :
    ∀ i : Nat, upsertIds u docId (assignIdx i l)
      = (List.range' i l.length).map (fun j => u (docId ++ ":" ++ toString j)) := by
  induction l with
  | nil => intro i; rfl
  | cons c cs ih =>
    intro i
    show u (docId ++ ":" ++ toString i) :: upsertIds u docId (assignIdx (i + 1) cs)
      = u (docId ++ ":" ++ toString i)
        :: (List.range' (i + 1) cs.length).map (fun j => u (docId ++ ":" ++ toString j))
    rw [ih (i + 1)]

/-- C3: the ids `upsert` persists for a parsed document are exactly
`uuid5(sha1(path) ++ ":" ++ i)` for `i = 0, 1, ...` up to the chunk count —
a function of nothing but the hash functions, the source path and the
chunking of the parsed blocks.  Re-ingesting the same unchanged document
therefore reproduces exactly the same id set (idempotent upsert), as both
runs chunk the same blocks. -/
theorem ingest_ids_stable (u sha : String → String) (path : String)
    (blocks : List Block) :
    ingestIds u sha path blocks
      = (List.range (chunk_blocks blocks 400 800 18 100).length).map
          (fun i => u (sha path ++ ":" ++ toString i)) := by
  have main : ∀ l : List Chunk,
      upsertIds u (sha path) (assignIdx 0 l)
        = (List.range (assignIdx 0 l).length).map
            (fun i => u (sha path ++ ":" ++ toString i)) := by
    intro l
    rw [assignIdx_length, List.range_eq_range']
    exact upsertIds_assignIdx u (sha path) l 0
  exact main _

/-- Invariant of the table-row grouping loop: with a non-empty header, every
buffer is `header :: pendingRows`, every emitted group starts with the
header, and the data rows of the emitted groups (in order) followed by the
pending and the unprocessed rows are exactly the rows fed in so far. -/
theorem tableLoop_spec (header : List String) (hh : header ≠ [])
    (minTok maxTok : Nat) :
    ∀ (rs : List (List String)) (groups : List (List (List String)))
      (pend : List (List String)) (cur : Nat),
      (∀ g ∈ groups, ∃ t, g = header :: t) →
      (∀ g ∈ tableLoop header minTok maxTok rs groups (header :: pend) cur,
          ∃ t, g = header :: t) ∧
      ((tableLoop header minTok maxTok rs groups (header :: pend) cur).map
          (fun g => g.drop 1)).flatten
        = (groups.map (fun g => g.drop 1)).flatten ++ pend ++ rs := by
  intro rs
  induction rs with
  | nil =>
    intro groups pend cur hg
    rw [tableLoop]
    rw [if_pos hh]
    by_cases hp : pend = []
    · subst hp
      rw [if_neg (by simp)]
      exact ⟨hg, by simp⟩
    · rw [if_pos (by simp [List.length_pos, hp])]
      constructor
      · intro g hgmem
        rcases List.mem_append.1 hgmem with h | h
        · exact hg g h
        · rw [List.mem_singleton] at h
          exact ⟨pend, h⟩
      · simp
  | cons r rs ih =>
    intro groups pend cur hg
    rw [tableLoop]
    by_cases hcond : maxTok < cur + row_tokens r ∧ minTok ≤ cur ∧
        (if header ≠ [] then 1 else 0) < (header :: pend).length
    · rw [if_pos hcond]
      rw [if_pos hh, if_pos hh]
      have hg2 : ∀ g ∈ groups ++ [header :: pend], ∃ t, g = header :: t := by
        intro g hgmem
        rcases List.mem_append.1 hgmem with h | h
        · exact hg g h
        · rw [List.mem_singleton] at h
          exact ⟨pend, h⟩
      have h0 := ih (groups ++ [header :: pend]) [r] (row_tokens header + row_tokens r) hg2
      simp only [List.cons_append, List.nil_append]
      refine ⟨h0.1, ?_⟩
      rw [h0.2]
      simp
    · rw [if_neg hcond]
      have h0 := ih groups (pend ++ [r]) (cur + row_tokens r) hg
      rw [List.cons_append]
      refine ⟨h0.1, ?_⟩
      rw [h0.2]
      simp

/-- C9: for every table whose first (header) row is non-empty, every emitted
row-group begins with that header row verbatim, and the data rows of the
groups, concatenated in group order, are exactly the source data rows in
source order (so order within each group matches the source). -/
theorem chunk_table_rows_header_order (rows : List (List String))
    (minTok maxTok : Nat) (header : List String) (data : List (List String))
    (hrows : rows = header :: data) (hh : header ≠ []) :
    (∀ g ∈ chunk_table_rows rows minTok maxTok, ∃ t, g = header :: t) ∧
    ((chunk_table_rows rows minTok maxTok).map (fun g => g.drop 1)).flatten
      = data := by
  subst hrows
  have hdef : chunk_table_rows (header :: data) minTok maxTok
      = tableLoop header minTok maxTok data [] (header :: []) (row_tokens header) := by
    rw [chunk_table_rows]
    rw [if_pos hh, if_pos hh]
  rw [hdef]
  obtain ⟨h1, h2⟩ := tableLoop_spec header hh minTok maxTok data [] []
    (row_tokens header) (by simp)
  refine ⟨h1, ?_⟩
  rw [h2]
  simp

/-- C9 witness: a three-row table with tight budgets splits into two groups,
each led by the header, with the data rows in source order. -/
theorem chunk_table_rows_header_order_witness :
    ((chunk_table_rows [["h"], ["a"], ["b"]] 0 0).map (fun g => g.drop 1)).flatten
      = [["a"], ["b"]] :=
  (chunk_table_rows_header_order [["h"], ["a"], ["b"]] 0 0 ["h"] [["a"], ["b"]]
    rfl (by decide)).2

/-- C4 counterexample: one text block with two tiny sub-blocks, packed with
`minTokens = 0`, `maxTokens = 1`, `overlapRatio = 0.18`.  On the flush the
buffer text `"a b"` has 3 characters, so `keep_chars = int(3*0.18) = 0`; the
claim's seed (the last 0-character suffix, i.e. nothing) would leave two
under-4-token chunks that are both filtered away, but the code's `old[-0:]`
slice seeds the next buffer with the ENTIRE flushed text, producing the
surviving chunk `"a b\nc d"`. -/
theorem chunk_blocks_overlap_seed_cex :
    (chunk_blocks [⟨"text", 1, "", "a b\n[[PAGE:2]]\nc d", [], 0, ""⟩]
        0 1 18 100).map Chunk.text = ["a b\nc d"] ∧
    (chunk_blocksSpec [⟨"text", 1, "", "a b\n[[PAGE:2]]\nc d", [], 0, ""⟩]
        0 1 18 100).map Chunk.text = [] := by
  exact ⟨by decide, by decide⟩

/-- A character that fails `p` survives `dropWhile p`. -/
theorem mem_dropWhile_of_not {p : Char → Bool} (c : Char) :
    ∀ l : List Char, c ∈ l → ¬ p c = true → c ∈ l.dropWhile p := by
  intro l
  induction l with
  | nil => intro h; simp at h
  | cons a l0 ih =>
    intro hc hp
    rw [List.dropWhile]
    cases hpa : p a with
    | true =>
      rcases List.mem_cons.1 hc with rfl | hc2
      · exact absurd hpa hp
      · exact ih hc2 hp
    | false => exact hc

/-- A list containing a character that fails `p` strips to something. -/
theorem chStrip_ne_nil {p : Char → Bool} (l : List Char) (c : Char)
    (hc : c ∈ l) (hp : ¬ p c = true) : chStrip p l ≠ [] := by
  unfold chStrip
  intro h
  have h2 : (l.dropWhile p).reverse.dropWhile p = [] := by
    simpa using h
  have hc1 : c ∈ l.dropWhile p := mem_dropWhile_of_not c l hc hp
  have hc2 : c ∈ (l.dropWhile p).reverse := List.mem_reverse.2 hc1
  have hc3 : c ∈ (l.dropWhile p).reverse.dropWhile p :=
    mem_dropWhile_of_not c _ hc2 hp
  rw [h2] at hc3
  exact absurd hc3 (List.not_mem_nil c)

/-- A string containing a non-whitespace character strips to non-empty. -/
theorem pyStrip_ne_of_char (s : String) (c : Char) (hc : c ∈ s.toList)
    (hp : ¬ c.isWhitespace = true) : pyStrip s ≠ "" := by
  unfold pyStrip
  intro h
  have hl : chStrip Char.isWhitespace s.toList = [] := congrArg String.data h
  exact chStrip_ne_nil s.toList c hc hp hl

/-- A string that strips to non-empty contains a non-whitespace character. -/
theorem strip_ne_exists_char (x : String) (h : pyStrip x ≠ "") :
    ∃ c ∈ x.toList, ¬ c.isWhitespace = true := by
  by_contra hall
  push_neg at hall
  apply h
  unfold pyStrip
  have h1 : x.toList.dropWhile Char.isWhitespace = [] :=
    List.dropWhile_eq_nil_iff.2 hall
  unfold chStrip
  rw [h1]
  rfl

/-- Every character of every buffer entry occurs in the joined buffer. -/
theorem mem_join_chars (x : String) (c : Char) (hc : c ∈ x.toList) :
    ∀ buf : List String, x ∈ buf → c ∈ (pyJoin "\n" buf).toList := by
  intro buf
  induction buf with
  | nil => intro hx; simp at hx
  | cons y rest ih =>
    intro hx
    rcases List.mem_cons.1 hx with rfl | hx2
    · cases rest with
      | nil => exact hc
      | cons z zs =>
        show c ∈ (x ++ "\n" ++ pyJoin "\n" (z :: zs)).data
        rw [String.data_append, String.data_append]
        exact List.mem_append.2 (Or.inl (List.mem_append.2 (Or.inl hc)))
    · cases rest with
      | nil => simp at hx2
      | cons z zs =>
        show c ∈ (y ++ "\n" ++ pyJoin "\n" (z :: zs)).data
        rw [String.data_append, String.data_append]
        exact List.mem_append.2 (Or.inr (ih hx2))

/-- A non-empty buffer whose entries all strip non-blank joins to a string
that strips non-blank, so `flush_text` on it always emits a chunk. -/
theorem flush_emits (st : PackState) (hbuf : ∀ x ∈ st.buf, pyStrip x ≠ "")
    (hne : st.buf ≠ []) : pyStrip (pyJoin "\n" st.buf) ≠ "" := by
  obtain ⟨x, hx⟩ := List.exists_mem_of_ne_nil st.buf hne
  obtain ⟨c, hc, hcw⟩ := strip_ne_exists_char x (hbuf x hx)
  exact pyStrip_ne_of_char _ c (mem_join_chars x c hc st.buf hx) hcw

/-- On a non-empty well-formed buffer, `flush_text` appends exactly the
buffered chunk. -/
theorem flushText_chunks (st : PackState)
    (hbuf : ∀ x ∈ st.buf, pyStrip x ≠ "") (hne : st.buf ≠ []) :
    flushText st = ⟨st.chunks ++ [textChunkOf st], [], [], [], 0⟩ := by
  unfold flushText
  rw [if_neg hne, if_pos (flush_emits st hbuf hne)]

/-- C4 amended: during text packing a non-blank sub-block triggers a flush
exactly when adding its token estimate would push the tracked buffer total
over `maxTok` while that total is already at least `minTok`; on flush the
next buffer is seeded with `overlapSeed` — the last `⌊ovN/ovD · len⌋`
characters of the flushed text, or the WHOLE flushed text when that count
is zero — with blank seeds discarded; otherwise the sub-block is simply
appended even if the chunk then exceeds `maxTok`; and a final non-empty
buffer always flushes into a chunk.  (`hbuf`/`hres` are the invariants of
every reachable pack state: buffer entries strip non-blank, and an empty
buffer has no pages, headings or token count.) -/
theorem packStep_flush_characterization (minTok maxTok ovN ovD : Nat)
    (st : PackState) (b : SubBlock)
    (hbuf : ∀ x ∈ st.buf, pyStrip x ≠ "")
    (hres : st.buf = [] → st.pages = [] ∧ st.heads = [] ∧ st.cur = 0)
    (hbtxt : pyStrip b.text ≠ "") :
    (if maxTok < st.cur + tokenize_len (pyStrip b.text) ∧ minTok ≤ st.cur then
        packStepT pyTailSlice minTok maxTok ovN ovD st b =
          { chunks := st.chunks ++ (if st.buf ≠ [] then [textChunkOf st] else []),
            buf := (if pyStrip (overlapSeed ovN ovD st) ≠ ""
                then [overlapSeed ovN ovD st] else []) ++ [pyStrip b.text],
            pages := [b.page], heads := [b.heading],
            cur := (if pyStrip (overlapSeed ovN ovD st) ≠ ""
                then tokenize_len (overlapSeed ovN ovD st) else 0)
              + tokenize_len (pyStrip b.text) }
      else
        packStepT pyTailSlice minTok maxTok ovN ovD st b =
          { chunks := st.chunks, buf := st.buf ++ [pyStrip b.text],
            pages := st.pages ++ [b.page], heads := st.heads ++ [b.heading],
            cur := st.cur + tokenize_len (pyStrip b.text) }) ∧
    (st.buf ≠ [] →
      (flushText st).chunks = st.chunks ++ [textChunkOf st]) := by
  constructor
  · have hseed : pyTailSlice (pyJoin "\n" st.buf)
        (ovN * (pyJoin "\n" st.buf).toList.length / ovD)
          = overlapSeed ovN ovD st := rfl
    by_cases hcond : maxTok < st.cur + tokenize_len (pyStrip b.text) ∧ minTok ≤ st.cur
    · rw [if_pos hcond]
      simp only [packStepT]
      rw [if_neg hbtxt, if_pos hcond]
      by_cases hb : st.buf = []
      · obtain ⟨hp, hh2, hc0⟩ := hres hb
        have hflush : flushText st = st := by
          unfold flushText
          rw [if_pos hb]
        have hold : pyJoin "\n" st.buf = "" := by rw [hb]; rfl
        have hlen0 : ("" : String).toList.length = 0 := rfl
        have htl0 : pyTailSlice (pyJoin "\n" st.buf)
            (ovN * (pyJoin "\n" st.buf).toList.length / ovD) = "" := by
          rw [hold, hlen0, Nat.mul_zero, Nat.zero_div]
          rfl
        have hseed0 : overlapSeed ovN ovD st = "" := by rw [← hseed, htl0]
        have hps : pyStrip "" = "" := rfl
        rw [htl0, hflush, hseed0]
        simp [hb, hp, hh2, hc0, hps]
      · have hflush := flushText_chunks st hbuf hb
        rw [hseed]
        by_cases htl : pyStrip (overlapSeed ovN ovD st) ≠ ""
        · rw [if_pos htl, if_pos htl, if_pos htl, hflush, if_pos hb]
          simp
        · rw [if_neg htl, if_neg htl, if_neg htl, hflush, if_pos hb]
          simp
    · rw [if_neg hcond]
      simp only [packStepT]
      rw [if_neg hbtxt, if_neg hcond]
  · intro hne
    rw [flushText_chunks st hbuf hne]

/-- C4 amended witness: a reachable state with buffered text `"a b"` flushes
it as a chunk on the final flush. -/
theorem packStep_flush_characterization_witness :
    (flushText ⟨[], ["a b"], [1], [""], 2⟩).chunks
      = [] ++ [textChunkOf ⟨[], ["a b"], [1], [""], 2⟩] :=
  (packStep_flush_characterization 0 1 18 100 ⟨[], ["a b"], [1], [""], 2⟩
    ⟨2, "", "c d"⟩ (by decide) (by decide) (by decide)).2 (by decide)

end Lexia
